import Mathlib

/-!
# Rank-one update eigenvalue core (`src/eigenvalues.c`)

A shallow embedding of `secularEquation`, `computeEigenvalues` and
`computeNormalizationFactors`.

* A C `double` is an element of a linear ordered field `α`; the theorems are
  stated for `α = ℝ` (exact real arithmetic, no rounding).  Division is the
  total division of the field, so `x / 0 = 0`.
* An input array `double* D` of length `n` is an index map `Nat → α`, of which
  only the indices below `n` are read.  A returned array is a `List α`.
* A failing `assert` aborts the computation: functions that contain one
  return `Except Error _`.
* The OpenMP pragmas only distribute the iterations of a loop; a
  `reduction(+:sum)` is the sum of the terms, whose order does not matter in a
  field.
* `sqrt` (libm) and `cblas_dnrm2` (BLAS) are outside the repository; the square
  root is a parameter of the definitions that use it and is `Real.sqrt` in the
  theorems.
-/

namespace SymmetricEigenvalue

/-- The ways `computeEigenvalues` can abort, named as in the specification.
`InvalidUpdate` is `assert(roh != 0)`, `BracketSearchOverflow` is
`assert(++j < 100)`.  No statement of the source raises
`IterationCapExceeded`. -/
inductive Error where
  | InvalidUpdate
  | BracketSearchOverflow
  | IterationCapExceeded
  deriving DecidableEq

section Defs

variable {α : Type} [LinearOrderedField α]

/-- The accumulation `sum = 0; for (i = 0; i < n; ++i) sum += term i`. -/
def sumLoop (term : Nat → α) : Nat → α
  | 0 => 0
  | k + 1 => sumLoop term k + term k

/-- The function `secularEquation` of `eigenvalues.c`:
`sum += z[i]*z[i] / (D[i]-lambda)` for `i < n`, then `1 + roh*sum`. -/
def secularEquation (lambda roh : α) (z D : Nat → α) (n : Nat) : α :=
  1 + roh * sumLoop (fun i => z i * z i / (D i - lambda)) n

/-- The BLAS routine `cblas_dnrm2(n, z, 1)`: the Euclidean norm of the first
`n` entries of `z`. -/
def cblas_dnrm2 (sqrt : α → α) (n : Nat) (z : Nat → α) : α :=
  sqrt (sumLoop (fun i => z i * z i) n)

/-- The constant `maxIter = 10000`. -/
def maxIter : Nat := 10000

/-- The constant `eps = 1e-10`. -/
def eps : α := 1 / 10 ^ 10

/-- The extremal search
`while (secularEquation(x, ...) < 0) { x = advance x; assert(++j < 100); }`.
The first argument is `99 - j`, the number of times the assertion can still
pass: when it is `0` and the loop test holds, the body raises `j` to `100`
and the assertion fails. -/
def bracketSearch (f : α → α) (advance : α → α) : Nat → α → Except Error α
  | 0, x => if f x < 0 then .error .BracketSearchOverflow else .ok x
  | r + 1, x => if f x < 0 then bracketSearch f advance r (advance x) else .ok x

/-- The variables of the bisection loop. -/
structure BisectState (α : Type) where
  /-- Lower interval boundary. -/
  a : α
  /-- Upper interval boundary. -/
  b : α
  /-- Last midpoint. -/
  lambda : α
  /-- Loop counter. -/
  j : Nat

/-- The loop `while (++j < maxIter) { ... }` of `computeEigenvalues`.
The first argument is the number of loop tests `++j < maxIter` that still
succeed, `maxIter - 1 - j`; when it is `0` the test increments `j` to
`maxIter` and the loop is left. -/
def bisectLoop (f : α → α) : Nat → BisectState α → BisectState α
  | 0, s => { s with j := s.j + 1 }
  | r + 1, s =>
    let j := s.j + 1
    let lambda := (s.a + s.b) / 2
    if f lambda = 0 ∨ (s.b - s.a) / 2 < eps then
      { a := s.a, b := s.b, lambda := lambda, j := j }
    else if (s.a ≥ 0 ∧ lambda ≥ 0) ∨ (s.a < 0 ∧ lambda < 0) then
      bisectLoop f r { a := lambda, b := s.b, lambda := lambda, j := j }
    else
      bisectLoop f r { a := s.a, b := lambda, lambda := lambda, j := j }

/-- The bisection of `computeEigenvalues` from the initial interval `[a, b]`:
`lambda = 0`, `j = 0`, then the loop. -/
def bisection (f : α → α) (a b : α) : BisectState α :=
  bisectLoop f (maxIter - 1) { a := a, b := b, lambda := 0, j := 0 }

/-- The initial interval of index `i` ("set initial interval"). -/
def initialInterval (D z : Nat → α) (n : Nat) (roh normZ : α) (i : Nat) :
    Except Error (α × α) :=
  let f := fun lambda => secularEquation lambda roh z D n
  if roh < 0 then
    if i = 0 then
      match bracketSearch f (fun a => a - normZ) 99 (D i - normZ) with
      | .ok a => .ok (a, D i)
      | .error e => .error e
    else
      .ok (D (i - 1), D i)
  else
    if i = n - 1 then
      match bracketSearch f (fun b => b + normZ) 99 (D i + normZ) with
      | .ok b => .ok (D i, b)
      | .error e => .error e
    else
      .ok (D i, D (i + 1))

/-- One pass of the body of `for (i = 0; i < n; ++i)`: the value stored in
`L[i]`. -/
def eigenvalueAt (D z : Nat → α) (n : Nat) (roh normZ : α) (i : Nat) :
    Except Error α :=
  match initialInterval D z n roh normZ i with
  | .ok (a, b) =>
    .ok (bisection (fun lambda => secularEquation lambda roh z D n) a b).lambda
  | .error e => .error e

/-- The loop `for (i = 0; i < n; ++i) L[i] = ...` with a body that may
abort. -/
def fillLoop (body : Nat → Except Error α) : Nat → Except Error (List α)
  | 0 => .ok []
  | k + 1 =>
    match fillLoop body k with
    | .error e => .error e
    | .ok L =>
      match body k with
      | .error e => .error e
      | .ok x => .ok (L ++ [x])

/-- The function `computeEigenvalues` of `eigenvalues.c`. -/
def computeEigenvalues (sqrt : α → α) (D z : Nat → α) (n : Nat) (beta theta : α) :
    Except Error (List α) :=
  let roh := beta * theta
  if roh = 0 then .error .InvalidUpdate
  else
    let normZ := cblas_dnrm2 sqrt n z
    fillLoop (eigenvalueAt D z n roh normZ) n

/-- The function `computeNormalizationFactors` of `eigenvalues.c`. -/
def computeNormalizationFactors (sqrt : α → α) (D z L : Nat → α) (n : Nat) : List α :=
  (List.range n).map fun i =>
    sqrt (sumLoop (fun j => z j * z j / ((D j - L i) * (D j - L i))) n)

/-- The arguments of the calls of `secularEquation` made by the extremal
search, in order: the loop test calls it once at every value of the probe. -/
def bracketSearchCalls (f : α → α) (advance : α → α) : Nat → α → List α
  | 0, x => [x]
  | r + 1, x => if f x < 0 then x :: bracketSearchCalls f advance r (advance x) else [x]

end Defs

/-- The array with `x0` at index `0` and `x1` at every other index. -/
def pair {α : Type} (x0 x1 : α) : Nat → α := fun i => if i = 0 then x0 else x1

section Lemmas

set_option linter.unusedSectionVars false

variable {α : Type} [LinearOrderedField α]

theorem sumLoop_eq_sum (term : Nat → α) (n : Nat) :
    sumLoop term n = ∑ i in Finset.range n, term i := by
  induction n with
  | zero => simp [sumLoop]
  | succ k ih => rw [sumLoop, ih, Finset.sum_range_succ]

theorem fillLoop_ok (body : Nat → Except Error α) :
    ∀ (n : Nat) (L : List α), fillLoop body n = .ok L →
      L.length = n ∧ ∀ i, i < n → body i = .ok (L.getD i 0) := by
  intro n
  induction n with
  | zero =>
    intro L h
    simp only [fillLoop, Except.ok.injEq] at h
    subst h
    exact ⟨rfl, fun i hi => absurd hi (Nat.not_lt_zero i)⟩
  | succ k ih =>
    intro L h
    rw [fillLoop] at h
    cases hk : fillLoop body k with
    | error e => rw [hk] at h; simp at h
    | ok L0 =>
      rw [hk] at h
      cases hb : body k with
      | error e => rw [hb] at h; simp at h
      | ok x =>
        rw [hb] at h
        simp only [Except.ok.injEq] at h
        subst h
        obtain ⟨hlen, hget⟩ := ih L0 hk
        refine ⟨by simp [hlen], ?_⟩
        intro i hi
        rcases Nat.lt_succ_iff_lt_or_eq.mp hi with hlt | heq
        · rw [List.getD_append _ _ _ _ (by omega)]
          exact hget i hlt
        · subst heq
          rw [List.getD_append_right _ _ _ _ (by omega)]
          simp [hlen, hb]

theorem fillLoop_returns (body : Nat → Except Error α) :
    ∀ (n : Nat), (∀ i, i < n → ∃ x, body i = .ok x) → ∃ L, fillLoop body n = .ok L := by
  intro n
  induction n with
  | zero => intro _; exact ⟨[], rfl⟩
  | succ k ih =>
    intro h
    obtain ⟨L0, hL0⟩ := ih (fun i hi => h i (Nat.lt_succ_of_lt hi))
    obtain ⟨x, hx⟩ := h k (Nat.lt_succ_self k)
    exact ⟨L0 ++ [x], by rw [fillLoop, hL0, hx]⟩

theorem fillLoop_error (body : Nat → Except Error α) (e : Error) :
    ∀ (n : Nat), fillLoop body n = .error e → ∃ i, i < n ∧ body i = .error e := by
  intro n
  induction n with
  | zero => intro h; simp [fillLoop] at h
  | succ k ih =>
    intro h
    rw [fillLoop] at h
    cases hk : fillLoop body k with
    | error e0 =>
      rw [hk] at h
      simp only [Except.error.injEq] at h
      subst h
      obtain ⟨i, hi, hb⟩ := ih hk
      exact ⟨i, Nat.lt_succ_of_lt hi, hb⟩
    | ok L0 =>
      rw [hk] at h
      cases hb : body k with
      | error e0 =>
        rw [hb] at h
        simp only [Except.error.injEq] at h
        subst h
        exact ⟨k, Nat.lt_succ_self k, hb⟩
      | ok x => rw [hb] at h; simp at h

/-! ### The extremal search -/

theorem bracketSearch_first (f advance : α → α) (r : Nat) (x : α) (h : ¬ f x < 0) :
    bracketSearch f advance r x = .ok x := by
  cases r <;> simp [bracketSearch, h]

theorem bisectLoop_bracket (f : α → α) :
    ∀ (r : Nat) (s : BisectState α), s.a < s.b →
      s.a ≤ (bisectLoop f r s).a ∧ (bisectLoop f r s).a < (bisectLoop f r s).b ∧
        (bisectLoop f r s).b ≤ s.b := by
  intro r
  induction r with
  | zero =>
    intro s hab
    exact ⟨le_rfl, hab, le_rfl⟩
  | succ k ih =>
    intro s hab
    have hm1 : s.a < (s.a + s.b) / 2 := by linarith
    have hm2 : (s.a + s.b) / 2 < s.b := by linarith
    rw [bisectLoop]
    split_ifs
    · exact ⟨le_rfl, hab, le_rfl⟩
    · obtain ⟨i1, i2, i3⟩ := ih ⟨(s.a + s.b) / 2, s.b, (s.a + s.b) / 2, s.j + 1⟩ hm2
      exact ⟨by simp only at i1; linarith, i2, i3⟩
    · obtain ⟨i1, i2, i3⟩ := ih ⟨s.a, (s.a + s.b) / 2, (s.a + s.b) / 2, s.j + 1⟩ hm1
      exact ⟨i1, i2, by simp only at i3; linarith⟩

/-- Closed form of the loop on a non-negative interval on whose upper half `f`
has no zero: the lower boundary is moved `k` times and the loop is left at test
`k + 1` of the half-width, with `lambda = b - (b - a) / 2 ^ (k + 1)`. -/
theorem bisectLoop_nonneg_closed (f : α → α) :
    ∀ (k r : Nat) (s : BisectState α), 0 ≤ s.a → s.a < s.b →
      (∀ x, (s.a + s.b) / 2 ≤ x → x < s.b → f x ≠ 0) →
      eps ≤ (s.b - s.a) / 2 ^ k → (s.b - s.a) / 2 ^ (k + 1) < eps → k ≤ r →
      (bisectLoop f (r + 1) s).lambda = s.b - (s.b - s.a) / 2 ^ (k + 1) := by
  intro k
  induction k with
  | zero =>
    intro r s _ _ _ _ hlt _
    have hw : (s.b - s.a) / 2 < eps := by simpa using hlt
    rw [bisectLoop]
    simp only [hw, or_true, if_true, zero_add, pow_one]
    linarith
  | succ k ih =>
    intro r s ha hab hf hge hlt hr
    obtain ⟨r0, rfl⟩ : ∃ r0, r = r0 + 1 := ⟨r - 1, by omega⟩
    have hm2 : (s.a + s.b) / 2 < s.b := by linarith
    have hm0 : (0 : α) ≤ (s.a + s.b) / 2 := by linarith
    have hpow : (0 : α) < 2 ^ k := by positivity
    have hhalf : s.b - (s.a + s.b) / 2 = (s.b - s.a) / 2 := by linarith
    have hw2 : ∀ m : Nat, (s.b - s.a) / 2 ^ (m + 1) = (s.b - s.a) / 2 / 2 ^ m := by
      intro m
      rw [pow_succ, div_div, mul_comm]
    have hwide : ¬ (s.b - s.a) / 2 < eps := by
      rw [not_lt]
      rw [hw2] at hge
      have h1 : (s.b - s.a) / 2 / 2 ^ k ≤ (s.b - s.a) / 2 :=
        div_le_self (by linarith) (one_le_pow₀ (by norm_num))
      linarith
    rw [bisectLoop]
    split_ifs with h1 h2
    · rcases h1 with h1 | h1
      · exact absurd h1 (hf _ le_rfl hm2)
      · exact absurd h1 hwide
    · rw [ih r0 ⟨(s.a + s.b) / 2, s.b, (s.a + s.b) / 2, s.j + 1⟩ hm0 hm2
        (fun x hx1 hx2 => hf x (by simp only at hx1; linarith) hx2)
        (by simp only; rw [hhalf, ← hw2]; exact hge)
        (by simp only; rw [hhalf, ← hw2]; exact hlt)
        (by omega)]
      simp only
      rw [hhalf, ← hw2]
    · exact absurd (Or.inl ⟨ha, hm0⟩) h2

theorem bisection_nonneg_closed (f : α → α) (a b : α) (k : Nat) (ha : 0 ≤ a) (hab : a < b)
    (hf : ∀ x, (a + b) / 2 ≤ x → x < b → f x ≠ 0)
    (hge : eps ≤ (b - a) / 2 ^ k) (hlt : (b - a) / 2 ^ (k + 1) < eps) (hk : k ≤ 9998) :
    (bisection f a b).lambda = b - (b - a) / 2 ^ (k + 1) :=
  bisectLoop_nonneg_closed f k 9998 ⟨a, b, 0, 0⟩ ha hab hf hge hlt hk

theorem bracketSearch_error (f advance : α → α) (e : Error) :
    ∀ (r : Nat) (x : α), bracketSearch f advance r x = .error e →
      e = .BracketSearchOverflow := by
  intro r
  induction r with
  | zero =>
    intro x h
    by_cases hf : f x < 0
    · simp only [bracketSearch, hf, if_true, Except.error.injEq] at h
      exact h.symm
    · simp [bracketSearch, hf] at h
  | succ k ih =>
    intro x h
    by_cases hf : f x < 0
    · simp only [bracketSearch, hf, if_true] at h
      exact ih _ h
    · simp [bracketSearch, hf] at h

theorem initialInterval_error (D z : Nat → α) (n : Nat) (roh normZ : α) (i : Nat) (e : Error)
    (h : initialInterval D z n roh normZ i = .error e) : e = .BracketSearchOverflow := by
  unfold initialInterval at h
  simp only at h
  split_ifs at h
  · cases hs : bracketSearch (fun lambda => secularEquation lambda roh z D n)
        (fun a => a - normZ) 99 (D i - normZ) with
    | error e0 =>
      rw [hs] at h
      simp only [Except.error.injEq] at h
      rw [← h]
      exact bracketSearch_error _ _ e0 99 _ hs
    | ok y => rw [hs] at h; simp at h
  · cases hs : bracketSearch (fun lambda => secularEquation lambda roh z D n)
        (fun b => b + normZ) 99 (D i + normZ) with
    | error e0 =>
      rw [hs] at h
      simp only [Except.error.injEq] at h
      rw [← h]
      exact bracketSearch_error _ _ e0 99 _ hs
    | ok y => rw [hs] at h; simp at h

/-! ### The structure of `computeEigenvalues` -/

theorem computeEigenvalues_ok (sqrt : α → α) (D z : Nat → α) (n : Nat) (beta theta : α)
    (L : List α) (h : computeEigenvalues sqrt D z n beta theta = .ok L) :
    beta * theta ≠ 0 ∧ L.length = n ∧
      ∀ i, i < n →
        eigenvalueAt D z n (beta * theta) (cblas_dnrm2 sqrt n z) i = .ok (L.getD i 0) := by
  unfold computeEigenvalues at h
  simp only at h
  by_cases hr : beta * theta = 0
  · simp [hr] at h
  · rw [if_neg hr] at h
    exact ⟨hr, fillLoop_ok _ n L h⟩

theorem eigenvalueAt_ok (D z : Nat → α) (n : Nat) (roh normZ : α) (i : Nat) (x : α)
    (h : eigenvalueAt D z n roh normZ i = .ok x) :
    ∃ a b, initialInterval D z n roh normZ i = .ok (a, b) ∧
      x = (bisection (fun lambda => secularEquation lambda roh z D n) a b).lambda := by
  unfold eigenvalueAt at h
  cases hI : initialInterval D z n roh normZ i with
  | error e => rw [hI] at h; simp at h
  | ok p =>
    obtain ⟨a, b⟩ := p
    rw [hI] at h
    simp only [Except.ok.injEq] at h
    exact ⟨a, b, rfl, h.symm⟩

theorem computeEigenvalues_error (sqrt : α → α) (D z : Nat → α) (n : Nat) (beta theta : α)
    (e : Error) (h : computeEigenvalues sqrt D z n beta theta = .error e) :
    (beta * theta = 0 ∧ e = .InvalidUpdate) ∨
      (beta * theta ≠ 0 ∧ e = .BracketSearchOverflow) := by
  unfold computeEigenvalues at h
  simp only at h
  by_cases hr : beta * theta = 0
  · rw [if_pos hr] at h
    simp only [Except.error.injEq] at h
    exact Or.inl ⟨hr, h.symm⟩
  · rw [if_neg hr] at h
    obtain ⟨i, _, hb⟩ := fillLoop_error _ e n h
    unfold eigenvalueAt at hb
    cases hI : initialInterval D z n (beta * theta) (cblas_dnrm2 sqrt n z) i with
    | error e0 =>
      rw [hI] at hb
      simp only [Except.error.injEq] at hb
      rw [← hb]
      exact Or.inr ⟨hr, initialInterval_error D z n _ _ i e0 hI⟩
    | ok q => rw [hI] at hb; simp at hb

/-! ### The initial interval -/

theorem initialInterval_interior_pos (D z : Nat → α) (n : Nat) (roh normZ : α) (i : Nat)
    (hroh : ¬ roh < 0) (hi : i + 1 < n) :
    initialInterval D z n roh normZ i = .ok (D i, D (i + 1)) := by
  have hne : i ≠ n - 1 := by omega
  simp [initialInterval, hroh, hne]

theorem bracketSearch_up_ok (f : α → α) (step : α) :
    ∀ (k r : Nat) (x : α), k ≤ r → (∀ m, m < k → f (x + m * step) < 0) →
      ¬ f (x + k * step) < 0 →
      bracketSearch f (fun b => b + step) r x = .ok (x + k * step) := by
  intro k
  induction k with
  | zero =>
    intro r x _ _ h
    simp only [Nat.cast_zero, zero_mul, add_zero] at h ⊢
    exact bracketSearch_first f _ r x h
  | succ k ih =>
    intro r x hr hneg h
    obtain ⟨r0, rfl⟩ : ∃ r0, r = r0 + 1 := ⟨r - 1, by omega⟩
    have h0 : f x < 0 := by simpa using hneg 0 (Nat.succ_pos k)
    rw [bracketSearch, if_pos h0]
    have e : ∀ m : Nat, x + step + m * step = x + ((m + 1 : Nat) : α) * step := by
      intro m
      push_cast
      ring
    rw [ih r0 (x + step) (by omega) (fun m hm => by rw [e]; exact hneg (m + 1) (by omega))
      (by rw [e]; exact h), e]

theorem bracketSearch_up_error (f : α → α) (step : α) :
    ∀ (r : Nat) (x : α), (∀ m, m ≤ r → f (x + m * step) < 0) →
      bracketSearch f (fun b => b + step) r x = .error .BracketSearchOverflow := by
  intro r
  induction r with
  | zero =>
    intro x h
    have h0 : f x < 0 := by simpa using h 0 le_rfl
    simp [bracketSearch, h0]
  | succ k ih =>
    intro x h
    have h0 : f x < 0 := by simpa using h 0 (Nat.zero_le _)
    rw [bracketSearch, if_pos h0]
    apply ih
    intro m hm
    have e : x + step + m * step = x + ((m + 1 : Nat) : α) * step := by
      push_cast
      ring
    rw [e]
    exact h (m + 1) (by omega)

theorem advance_down_eq (step : α) : (fun a : α => a - step) = fun b => b + -step := by
  funext a
  exact sub_eq_add_neg a step

theorem bracketSearch_down_ok (f : α → α) (step : α) (k r : Nat) (x : α) (hk : k ≤ r)
    (hneg : ∀ m, m < k → f (x - m * step) < 0) (h : ¬ f (x - k * step) < 0) :
    bracketSearch f (fun a => a - step) r x = .ok (x - k * step) := by
  have e : ∀ m : Nat, x + m * -step = x - m * step := fun m => by ring
  rw [advance_down_eq, ← e]
  exact bracketSearch_up_ok f (-step) k r x hk (fun m hm => by rw [e]; exact hneg m hm)
    (by rw [e]; exact h)

theorem bracketSearch_down_error (f : α → α) (step : α) (r : Nat) (x : α)
    (hneg : ∀ m, m ≤ r → f (x - m * step) < 0) :
    bracketSearch f (fun a => a - step) r x = .error .BracketSearchOverflow := by
  have e : ∀ m : Nat, x + m * -step = x - m * step := fun m => by ring
  rw [advance_down_eq]
  exact bracketSearch_up_error f (-step) r x (fun m hm => by rw [e]; exact hneg m hm)

/-- What the search does, in terms of the probes `x + m * step`: it aborts when
`f` is negative at all of the first `r + 1` probes, and otherwise returns the
first probe at which `f` is not negative. -/
theorem bracketSearch_up_spec (f : α → α) (step : α) :
    ∀ (r : Nat) (x : α),
      (bracketSearch f (fun b => b + step) r x = .error .BracketSearchOverflow ∧
          ∀ m, m ≤ r → f (x + m * step) < 0) ∨
        ∃ k, k ≤ r ∧ bracketSearch f (fun b => b + step) r x = .ok (x + k * step) ∧
          ¬ f (x + k * step) < 0 ∧ ∀ m, m < k → f (x + m * step) < 0 := by
  intro r x
  by_cases hall : ∀ m, m ≤ r → f (x + m * step) < 0
  · exact Or.inl ⟨bracketSearch_up_error f step r x hall, hall⟩
  · right
    have hex : ∃ k, k ≤ r ∧ ¬ f (x + k * step) < 0 := by
      by_contra hc
      exact hall (fun m hm => by
        by_contra hf
        exact hc ⟨m, hm, hf⟩)
    classical
    refine ⟨Nat.find hex, (Nat.find_spec hex).1, ?_, (Nat.find_spec hex).2, ?_⟩
    · exact bracketSearch_up_ok f step _ r x (Nat.find_spec hex).1
        (fun m hm => by
          by_contra hf
          exact Nat.find_min hex hm ⟨le_trans (le_of_lt hm) (Nat.find_spec hex).1, hf⟩)
        (Nat.find_spec hex).2
    · intro m hm
      by_contra hf
      exact Nat.find_min hex hm ⟨le_trans (le_of_lt hm) (Nat.find_spec hex).1, hf⟩

theorem bracketSearch_down_spec (f : α → α) (step : α) (r : Nat) (x : α) :
    (bracketSearch f (fun a => a - step) r x = .error .BracketSearchOverflow ∧
        ∀ m, m ≤ r → f (x - m * step) < 0) ∨
      ∃ k, k ≤ r ∧ bracketSearch f (fun a => a - step) r x = .ok (x - k * step) ∧
        ¬ f (x - k * step) < 0 ∧ ∀ m, m < k → f (x - m * step) < 0 := by
  have e : ∀ m : Nat, x + m * -step = x - m * step := fun m => by ring
  have h := bracketSearch_up_spec f (-step) r x
  rw [← advance_down_eq] at h
  simp only [e] at h
  exact h

/-! ### The arguments of the calls of `secularEquation` -/

/-- The value returned by the search is the probe of its last call. -/
theorem bracketSearch_mem_calls (f advance : α → α) :
    ∀ (r : Nat) (x y : α), bracketSearch f advance r x = .ok y →
      y ∈ bracketSearchCalls f advance r x := by
  intro r
  induction r with
  | zero =>
    intro x y h
    by_cases hf : f x < 0
    · simp [bracketSearch, hf] at h
    · simp only [bracketSearch, hf, if_false, Except.ok.injEq] at h
      simp [bracketSearchCalls, h]
  | succ k ih =>
    intro x y h
    by_cases hf : f x < 0
    · simp only [bracketSearch, hf, if_true] at h
      simp only [bracketSearchCalls, hf, if_true]
      exact List.mem_cons_of_mem _ (ih _ _ h)
    · simp only [bracketSearch, hf, if_false, Except.ok.injEq] at h
      subst h
      simp [bracketSearchCalls, hf]

end Lemmas

section RealLemmas

theorem computeEigenvalues_returns (sqrt : ℝ → ℝ) (D z : Nat → ℝ) (n : Nat) (beta theta : ℝ)
    (hroh : beta * theta ≠ 0)
    (hs : ∀ i, i < n →
      ∃ p, initialInterval D z n (beta * theta) (cblas_dnrm2 sqrt n z) i = .ok p) :
    ∃ L, computeEigenvalues sqrt D z n beta theta = .ok L := by
  unfold computeEigenvalues
  simp only [if_neg hroh]
  apply fillLoop_returns
  intro i hi
  obtain ⟨p, hp⟩ := hs i hi
  exact ⟨_, by rw [eigenvalueAt, hp]⟩

/-! ### The two-entry scenario of the specification -/

theorem secularEquation_pair (lambda roh z0 z1 d0 d1 : ℝ) :
    secularEquation lambda roh (pair z0 z1) (pair d0 d1) 2
      = 1 + roh * (z0 * z0 / (d0 - lambda) + z1 * z1 / (d1 - lambda)) := by
  simp [secularEquation, sumLoop, pair]

theorem cblas_dnrm2_pair_one : cblas_dnrm2 Real.sqrt 2 (pair (1 : ℝ) 1) = Real.sqrt 2 := by
  simp [cblas_dnrm2, sumLoop, pair]
  norm_num

theorem sqrt_two_mul_self : Real.sqrt 2 * Real.sqrt 2 = 2 :=
  Real.mul_self_sqrt (by norm_num)

theorem sqrt_two_pos : 0 < Real.sqrt 2 := Real.sqrt_pos.mpr (by norm_num)

/-- The first probe above `D[1] = 3` is the exact root `3 + √2`. -/
theorem secularEquation_scenario_upper :
    secularEquation (3 + Real.sqrt 2) 1 (pair 1 1) (pair 1 3) 2 = 0 := by
  rw [secularEquation_pair]
  have hs := sqrt_two_mul_self
  have hp := sqrt_two_pos
  have h1 : (1 : ℝ) - (3 + Real.sqrt 2) ≠ 0 := by linarith
  have h2 : (3 : ℝ) - (3 + Real.sqrt 2) ≠ 0 := by linarith
  field_simp
  nlinarith

theorem pair_increasing (d0 d1 : ℝ) (h : d0 < d1) :
    ∀ k, k + 1 < 2 → pair d0 d1 k < pair d0 d1 (k + 1) := by
  intro k hk
  have h0 : k = 0 := by omega
  subst h0
  simpa [pair] using h

theorem pair_ne_zero (z0 z1 : ℝ) (h0 : z0 ≠ 0) (h1 : z1 ≠ 0) :
    ∀ k, k < 2 → pair z0 z1 k ≠ 0 := by
  intro k _
  unfold pair
  split_ifs
  · exact h0
  · exact h1

theorem scenario_returns (beta theta : ℝ) (h : beta * theta = 1) :
    ∃ L, computeEigenvalues Real.sqrt (pair 1 3) (pair 1 1) 2 beta theta = .ok L := by
  apply computeEigenvalues_returns
  · rw [h]; exact one_ne_zero
  · intro i hi
    rw [h, cblas_dnrm2_pair_one]
    have hroh : ¬ (1 : ℝ) < 0 := by norm_num
    rcases Nat.lt_succ_iff_lt_or_eq.mp hi with hlt | heq
    · exact ⟨_, initialInterval_interior_pos _ _ 2 1 _ i hroh (by omega)⟩
    · subst heq
      refine ⟨(3, 3 + Real.sqrt 2), ?_⟩
      have hD1 : pair (1 : ℝ) 3 1 = 3 := by simp [pair]
      simp only [initialInterval, hroh, if_false, if_true, Nat.add_one_sub_one, hD1]
      rw [bracketSearch_first _ _ _ _ (by
        simp only [secularEquation_scenario_upper, lt_irrefl, not_false_eq_true])]

theorem secularEquation_scenario_pos (x : ℝ) (hx1 : 2 ≤ x) (hx2 : x < 3) :
    0 < secularEquation x 1 (pair 1 1) (pair 1 3) 2 := by
  rw [secularEquation_pair]
  have e1 : (-1 : ℝ) ≤ 1 * 1 / (1 - x) := by
    rw [le_div_iff_of_neg (by linarith)]
    linarith
  have e2 : (1 : ℝ) ≤ 1 * 1 / (3 - x) := by
    rw [le_div_iff₀ (by linarith)]
    linarith
  linarith

/-- In the scenario `D = [1, 3]`, `z = [1, 1]`, `roh = 1` the lower boundary is
moved 34 times and `L[0] = 3 - 2 / 2^35`. -/
theorem scenario_first_entry (beta theta : ℝ) (h : beta * theta = 1) (L : List ℝ)
    (hL : computeEigenvalues Real.sqrt (pair 1 3) (pair 1 1) 2 beta theta = .ok L) :
    L.getD 0 0 = 3 - (3 - 1) / 2 ^ (34 + 1) := by
  obtain ⟨_, _, hget⟩ := computeEigenvalues_ok Real.sqrt _ _ 2 beta theta L hL
  obtain ⟨a, b, hI, hx⟩ := eigenvalueAt_ok _ _ 2 _ _ 0 _ (hget 0 (by norm_num))
  rw [h, initialInterval_interior_pos _ _ 2 1 _ 0 (by norm_num) (by norm_num)] at hI
  simp only [Except.ok.injEq, Prod.mk.injEq, pair] at hI
  norm_num at hI
  obtain ⟨ha, hb⟩ := hI
  subst ha hb
  rw [hx, h]
  exact bisection_nonneg_closed (fun lambda => secularEquation lambda 1 (pair 1 1) (pair 1 3) 2)
    1 3 34 (by norm_num) (by norm_num)
    (fun x hx1 hx2 => ne_of_gt (secularEquation_scenario_pos x (by linarith) hx2))
    (by unfold eps; norm_num) (by unfold eps; norm_num) (by norm_num)

/-! ### Normalization factors -/

theorem normalizationFactor_entry (D z L : Nat → ℝ) (n i : Nat) (hi : i < n) :
    (computeNormalizationFactors Real.sqrt D z L n).getD i 0
      = Real.sqrt (∑ j in Finset.range n, z j ^ 2 / (D j - L i) ^ 2) := by
  unfold computeNormalizationFactors
  rw [List.getD_eq_getElem _ _ (by simpa using hi)]
  simp only [List.getElem_map, List.getElem_range, sumLoop_eq_sum]
  congr 1
  apply Finset.sum_congr rfl
  intro j _
  rw [sq, sq]

theorem normalizationSum_pos (D z L : Nat → ℝ) (n i : Nat)
    (hL : ∀ j, j < n → L i ≠ D j) (hz : ∃ j, j < n ∧ z j ≠ 0) :
    0 < ∑ j in Finset.range n, z j ^ 2 / (D j - L i) ^ 2 := by
  obtain ⟨j0, hj0, hz0⟩ := hz
  apply Finset.sum_pos'
  · intro j _
    positivity
  · refine ⟨j0, Finset.mem_range.mpr hj0, ?_⟩
    have hd : D j0 - L i ≠ 0 := sub_ne_zero.mpr (Ne.symm (hL j0 hj0))
    positivity

/-! ### Returned entries and the poles -/

theorem increasing_le (D : Nat → ℝ) (n : Nat) (hD : ∀ k, k + 1 < n → D k < D (k + 1)) :
    ∀ (j i : Nat), i ≤ j → j < n → D i ≤ D j := by
  intro j
  induction j with
  | zero =>
    intro i hi _
    rw [Nat.le_zero.mp hi]
  | succ k ih =>
    intro i hi hk
    rcases Nat.lt_succ_iff_lt_or_eq.mp (Nat.lt_succ_of_le hi) with hlt | heq
    · exact le_trans (ih i (Nat.lt_succ_iff.mp hlt) (by omega)) (le_of_lt (hD k hk))
    · rw [heq]

theorem secularEquation_eq_sum (lambda roh : ℝ) (z D : Nat → ℝ) (n : Nat) :
    secularEquation lambda roh z D n
      = 1 + roh * ∑ j in Finset.range n, z j * z j / (D j - lambda) := by
  rw [secularEquation, sumLoop_eq_sum]

theorem cblas_dnrm2_three_four : cblas_dnrm2 Real.sqrt 2 (pair (3 : ℝ) 4) = 5 := by
  have h : sumLoop (fun i => pair (3 : ℝ) 4 i * pair (3 : ℝ) 4 i) 2 = 5 * 5 := by
    simp [sumLoop, pair]
    norm_num
  rw [cblas_dnrm2, h]
  exact Real.sqrt_mul_self (by norm_num)

/-- On `D = [0, 1]`, `z = [3, 4]` and `roh > 0` the probe number `m + 1` of the
search is `1 + 5 * (m + 1)`, where the secular equation is
`1 - roh * (9 / (1 + 5 (m + 1)) + 16 / (5 (m + 1)))`. -/
theorem secularEquation_probe (roh : ℝ) (m : Nat) :
    secularEquation (1 + 5 + (m : ℝ) * 5) roh (pair 3 4) (pair 0 1) 2
      = 1 - roh * (9 / (6 + 5 * (m : ℝ)) + 16 / (5 + 5 * (m : ℝ))) := by
  rw [secularEquation_pair]
  have h1 : (0 : ℝ) - (1 + 5 + (m : ℝ) * 5) = -(6 + 5 * (m : ℝ)) := by ring
  have h2 : (1 : ℝ) - (1 + 5 + (m : ℝ) * 5) = -(5 + 5 * (m : ℝ)) := by ring
  rw [h1, h2, div_neg, div_neg]
  norm_num
  ring

theorem computeEigenvalues_overflow (D z : Nat → ℝ) (n : Nat) (beta theta : ℝ) (i : Nat)
    (e : Error) (hroh : beta * theta ≠ 0) (hi : i < n)
    (h : initialInterval D z n (beta * theta) (cblas_dnrm2 Real.sqrt n z) i = .error e) :
    computeEigenvalues Real.sqrt D z n beta theta = .error .BracketSearchOverflow := by
  cases hc : computeEigenvalues Real.sqrt D z n beta theta with
  | error e0 =>
    rcases computeEigenvalues_error Real.sqrt D z n beta theta e0 hc with ⟨h0, _⟩ | ⟨_, he⟩
    · exact absurd h0 hroh
    · rw [he]
  | ok L =>
    obtain ⟨_, _, hget⟩ := computeEigenvalues_ok Real.sqrt D z n beta theta L hc
    have := hget i hi
    rw [eigenvalueAt, h] at this
    simp at this

/-- On `D = [0, 1]`, `z = [3, 4]` and `roh > 0` the function aborts when the
secular equation is negative at the first hundred probes. -/
theorem overflow_three_four (beta theta : ℝ) (hroh : 0 < beta * theta)
    (hneg : ∀ m : Nat, m ≤ 99 →
      secularEquation (1 + 5 + (m : ℝ) * 5) (beta * theta) (pair 3 4) (pair 0 1) 2 < 0) :
    computeEigenvalues Real.sqrt (pair 0 1) (pair 3 4) 2 beta theta
      = .error .BracketSearchOverflow := by
  apply computeEigenvalues_overflow _ _ 2 beta theta 1 .BracketSearchOverflow (ne_of_gt hroh)
    (by norm_num)
  have hD1 : pair (0 : ℝ) 1 1 = 1 := by simp [pair]
  simp only [initialInterval, not_lt.mpr (le_of_lt hroh), if_false, if_true,
    Nat.add_one_sub_one, hD1, cblas_dnrm2_three_four]
  rw [bracketSearch_up_error (fun lambda => secularEquation lambda (beta * theta) (pair 3 4)
    (pair 0 1) 2) 5 99 (1 + 5) hneg]

/-! ### The root of the scenario that the loop leaves behind -/

theorem secularEquation_scenario_root :
    secularEquation (3 - Real.sqrt 2) 1 (pair 1 1) (pair 1 3) 2 = 0 := by
  rw [secularEquation_pair]
  have hs := sqrt_two_mul_self
  have hp := sqrt_two_pos
  have hlt : Real.sqrt 2 < 2 := by nlinarith
  have h1 : (1 : ℝ) - (3 - Real.sqrt 2) ≠ 0 := by linarith
  have h2 : (3 : ℝ) - (3 - Real.sqrt 2) ≠ 0 := by linarith
  field_simp
  nlinarith

theorem secularEquation_scenario_two :
    secularEquation (2 : ℝ) 1 (pair 1 1) (pair 1 3) 2 = 1 := by
  rw [secularEquation_pair]
  norm_num

/-- The first iteration on `[1, 3]` in the scenario moves the lower boundary to
the midpoint `2`. -/
theorem scenario_first_step (r : Nat) :
    bisectLoop (fun lambda : ℝ => secularEquation lambda 1 (pair 1 1) (pair 1 3) 2) (r + 1)
        ⟨1, 3, 0, 0⟩
      = bisectLoop (fun lambda : ℝ => secularEquation lambda 1 (pair 1 1) (pair 1 3) 2) r
        ⟨2, 3, 2, 1⟩ := by
  have hmid : ((1 : ℝ) + 3) / 2 = 2 := by norm_num
  have hw : ¬ ((3 : ℝ) - 1) / 2 < eps := by
    unfold eps
    norm_num
  rw [bisectLoop]
  simp only [hmid, secularEquation_scenario_two, one_ne_zero, hw, or_self, if_false]
  norm_num

/-! ### No call of `secularEquation` at a pole -/

theorem term_lt_term (c d x y : ℝ) (hc : 0 < c) (hxy : x < y) (h : d < x ∨ y < d) :
    c / (d - x) < c / (d - y) := by
  rcases h with h | h
  · have e1 : c / (d - x) = -(c / (x - d)) := by rw [← div_neg, neg_sub]
    have e2 : c / (d - y) = -(c / (y - d)) := by rw [← div_neg, neg_sub]
    rw [e1, e2, neg_lt_neg_iff]
    exact div_lt_div_of_pos_left hc (by linarith) (by linarith)
  · exact div_lt_div_of_pos_left hc (by linarith) (by linarith)

theorem term_le_term (c d x y : ℝ) (hc : 0 ≤ c) (hxy : x < y) (h : d < x ∨ y < d) :
    c / (d - x) ≤ c / (d - y) := by
  rcases eq_or_lt_of_le hc with h0 | h0
  · rw [← h0, zero_div, zero_div]
  · exact le_of_lt (term_lt_term c d x y h0 hxy h)

/-- The sum of the secular equation increases strictly between two points that
no pole separates. -/
theorem poleSum_strictMono (D z : Nat → ℝ) (n : Nat) (x y : ℝ) (hxy : x < y)
    (hp : ∀ j, j < n → D j < x ∨ y < D j) (hz : ∃ j, j < n ∧ z j ≠ 0) :
    ∑ j in Finset.range n, z j * z j / (D j - x)
      < ∑ j in Finset.range n, z j * z j / (D j - y) := by
  obtain ⟨j0, hj0, hz0⟩ := hz
  apply Finset.sum_lt_sum
  · intro j hj
    exact term_le_term _ _ _ _ (mul_self_nonneg _) hxy (hp j (Finset.mem_range.mp hj))
  · exact ⟨j0, Finset.mem_range.mpr hj0,
      term_lt_term _ _ _ _ (mul_self_pos.mpr hz0) hxy (hp j0 hj0)⟩

theorem secularEquation_lt_of_pos (D z : Nat → ℝ) (n : Nat) (roh x y : ℝ) (hroh : 0 < roh)
    (hxy : x < y) (hp : ∀ j, j < n → D j < x ∨ y < D j) (hz : ∃ j, j < n ∧ z j ≠ 0) :
    secularEquation x roh z D n < secularEquation y roh z D n := by
  rw [secularEquation_eq_sum, secularEquation_eq_sum]
  have := mul_lt_mul_of_pos_left (poleSum_strictMono D z n x y hxy hp hz) hroh
  linarith

theorem secularEquation_lt_of_neg (D z : Nat → ℝ) (n : Nat) (roh x y : ℝ) (hroh : roh < 0)
    (hxy : x < y) (hp : ∀ j, j < n → D j < x ∨ y < D j) (hz : ∃ j, j < n ∧ z j ≠ 0) :
    secularEquation y roh z D n < secularEquation x roh z D n := by
  rw [secularEquation_eq_sum, secularEquation_eq_sum]
  have := mul_lt_mul_of_neg_left (poleSum_strictMono D z n x y hxy hp hz) hroh
  linarith

/-- The secular equation is continuous on a closed interval without pole. -/
theorem secularEquation_continuousOn (D z : Nat → ℝ) (n : Nat) (roh x0 x1 : ℝ)
    (hp : ∀ j, j < n → D j < x0 ∨ x1 < D j) :
    ContinuousOn (fun x => secularEquation x roh z D n) (Set.Icc x0 x1) := by
  have hfun : (fun x => secularEquation x roh z D n)
      = fun x => 1 + roh * ∑ j in Finset.range n, z j * z j / (D j - x) := by
    funext x
    exact secularEquation_eq_sum x roh z D n
  rw [hfun]
  apply ContinuousOn.add continuousOn_const
  apply ContinuousOn.mul continuousOn_const
  apply continuousOn_finset_sum
  intro j hj
  apply ContinuousOn.div continuousOn_const (continuousOn_const.sub continuousOn_id)
  intro x hx
  rcases hp j (Finset.mem_range.mp hj) with h | h
  · exact ne_of_lt (by have := hx.1; simp only [id]; linarith)
  · exact ne_of_gt (by have := hx.2; simp only [id]; linarith)

/-! ### The secular equation near a pole -/

/-- Just above a pole `D[p]` with `z[p] ≠ 0` the sum of the secular equation is
below any given bound. -/
theorem poleSum_above_pole (D z : Nat → ℝ) (n p : Nat) (u M : ℝ) (hp : p < n)
    (hz : z p ≠ 0) (hu : D p < u) (hother : ∀ j, j < n → j ≠ p → D j < D p ∨ u ≤ D j) :
    ∃ x, D p < x ∧ x < u ∧ ∑ j in Finset.range n, z j * z j / (D j - x) < -M := by
  have hh : 0 < (u - D p) / 2 := by linarith
  have hzp : 0 < z p * z p := mul_self_pos.mpr hz
  have hC : 0 ≤ ∑ j in (Finset.range n).erase p, z j * z j / ((u - D p) / 2) :=
    Finset.sum_nonneg (fun j _ => div_nonneg (mul_self_nonneg _) (le_of_lt hh))
  have hK : 0 < |M| + ∑ j in (Finset.range n).erase p, z j * z j / ((u - D p) / 2) + 1 := by
    have := abs_nonneg M
    linarith
  have hdpos : 0 < min ((u - D p) / 2)
      (z p * z p / (|M| + ∑ j in (Finset.range n).erase p, z j * z j / ((u - D p) / 2) + 1)) :=
    lt_min hh (div_pos hzp hK)
  have hd1 := min_le_left ((u - D p) / 2)
    (z p * z p / (|M| + ∑ j in (Finset.range n).erase p, z j * z j / ((u - D p) / 2) + 1))
  have hd2 := min_le_right ((u - D p) / 2)
    (z p * z p / (|M| + ∑ j in (Finset.range n).erase p, z j * z j / ((u - D p) / 2) + 1))
  generalize min ((u - D p) / 2)
    (z p * z p / (|M| + ∑ j in (Finset.range n).erase p, z j * z j / ((u - D p) / 2) + 1))
    = δ at hdpos hd1 hd2
  refine ⟨D p + δ, by linarith, by linarith, ?_⟩
  have hterm_p : z p * z p / (D p - (D p + δ))
      ≤ -(|M| + ∑ j in (Finset.range n).erase p, z j * z j / ((u - D p) / 2) + 1) := by
    have e : D p - (D p + δ) = -δ := by ring
    rw [e, div_neg, neg_le_neg_iff, le_div_iff₀ hdpos]
    have := (le_div_iff₀ hK).mp hd2
    linarith
  have hrest : ∑ j in (Finset.range n).erase p, z j * z j / (D j - (D p + δ))
      ≤ ∑ j in (Finset.range n).erase p, z j * z j / ((u - D p) / 2) := by
    apply Finset.sum_le_sum
    intro j hj
    obtain ⟨hne, hjn⟩ := Finset.mem_erase.mp hj
    rcases hother j (Finset.mem_range.mp hjn) hne with h | h
    · have hneg : z j * z j / (D j - (D p + δ)) ≤ 0 :=
        div_nonpos_of_nonneg_of_nonpos (mul_self_nonneg _) (by linarith)
      exact le_trans hneg (div_nonneg (mul_self_nonneg _) (le_of_lt hh))
    · exact div_le_div_of_nonneg_left (mul_self_nonneg _) hh (by linarith)
  rw [← Finset.add_sum_erase _ _ (Finset.mem_range.mpr hp)]
  have := le_abs_self M
  have := neg_abs_le M
  linarith

/-- The sum of the secular equation of the reflected poles `-D` at `-x` is the
opposite of the sum at `x`. -/
theorem poleSum_reflect (D z : Nat → ℝ) (n : Nat) (x : ℝ) :
    ∑ j in Finset.range n, z j * z j / (-D j - -x)
      = -∑ j in Finset.range n, z j * z j / (D j - x) := by
  rw [← Finset.sum_neg_distrib]
  apply Finset.sum_congr rfl
  intro j _
  rw [← div_neg]
  congr 1
  ring

/-- Just below a pole `D[p]` with `z[p] ≠ 0` the sum of the secular equation is
above any given bound. -/
theorem poleSum_below_pole (D z : Nat → ℝ) (n p : Nat) (l M : ℝ) (hp : p < n)
    (hz : z p ≠ 0) (hl : l < D p) (hother : ∀ j, j < n → j ≠ p → D j ≤ l ∨ D p < D j) :
    ∃ x, l < x ∧ x < D p ∧ M < ∑ j in Finset.range n, z j * z j / (D j - x) := by
  obtain ⟨x, h1, h2, h3⟩ := poleSum_above_pole (fun j => -D j) z n p (-l) M hp hz
    (by simp only; linarith)
    (fun j hj hne => by
      rcases hother j hj hne with h | h
      · exact Or.inr (by simp only; linarith)
      · exact Or.inl (by simp only; linarith))
  refine ⟨-x, by linarith, by linarith, ?_⟩
  have e := poleSum_reflect D z n (-x)
  rw [neg_neg] at e
  rw [e] at h3
  linarith

/-! ### Roots of the secular equation -/

theorem increasing_lt (D : Nat → ℝ) (n : Nat) (hD : ∀ k, k + 1 < n → D k < D (k + 1))
    (i j : Nat) (hij : i < j) (hj : j < n) : D i < D j := by
  have h1 := increasing_le D n hD (j - 1) i (by omega) (by omega)
  have h2 := hD (j - 1) (by omega)
  rw [Nat.sub_add_cancel (by omega)] at h2
  linarith

theorem interior_pole_free (D : Nat → ℝ) (n : Nat) (hD : ∀ k, k + 1 < n → D k < D (k + 1))
    (i : Nat) (hi : i + 1 < n) (x y : ℝ) (hx : D i < x) (hy : y < D (i + 1)) :
    ∀ j, j < n → D j < x ∨ y < D j := by
  intro j hj
  rcases Nat.lt_or_ge i j with hlt | hge
  · have := increasing_le D n hD j (i + 1) hlt hj
    exact Or.inr (by linarith)
  · have := increasing_le D n hD i j hge (by omega)
    exact Or.inl (by linarith)

/-- Between two consecutive poles the secular equation has a root. -/
theorem interior_root_exists (D z : Nat → ℝ) (n : Nat) (roh : ℝ)
    (hD : ∀ k, k + 1 < n → D k < D (k + 1)) (hz : ∀ k, k < n → z k ≠ 0) (hroh : roh ≠ 0)
    (i : Nat) (hi : i + 1 < n) :
    ∃ x, D i < x ∧ x < D (i + 1) ∧ secularEquation x roh z D n = 0 := by
  have hab : ∀ M, ∃ x0, D i < x0 ∧ x0 < D (i + 1) ∧
      ∑ j in Finset.range n, z j * z j / (D j - x0) < -M := fun M =>
    poleSum_above_pole D z n i (D (i + 1)) M (by omega) (hz i (by omega)) (hD i hi)
      (fun j hj hne => by
        rcases Nat.lt_or_ge j i with hlt | hge
        · exact Or.inl (increasing_lt D n hD j i hlt (by omega))
        · exact Or.inr (increasing_le D n hD j (i + 1) (by omega) hj))
  have hbe : ∀ l M, D i < l → l < D (i + 1) → ∃ x1, l < x1 ∧ x1 < D (i + 1) ∧
      M < ∑ j in Finset.range n, z j * z j / (D j - x1) := fun l M hl1 hl2 =>
    poleSum_below_pole D z n (i + 1) l M hi (hz (i + 1) hi) hl2
      (fun j hj hne => by
        rcases Nat.lt_or_ge j (i + 1) with hlt | hge
        · have := increasing_le D n hD i j (by omega) (by omega)
          exact Or.inl (by linarith)
        · exact Or.inr (increasing_lt D n hD (i + 1) j (by omega) hj))
  rcases lt_or_gt_of_ne hroh with hneg | hpos
  · obtain ⟨x0, a1, a2, a3⟩ := hab 0
    obtain ⟨x1, b1, b2, b3⟩ := hbe x0 (-(1 / roh)) a1 a2
    have hf0 : 0 < secularEquation x0 roh z D n := by
      rw [secularEquation_eq_sum]
      have := mul_pos_of_neg_of_neg hneg (by linarith : ∑ j in Finset.range n,
        z j * z j / (D j - x0) < 0)
      linarith
    have hf1 : secularEquation x1 roh z D n < 0 := by
      rw [secularEquation_eq_sum]
      have h := mul_lt_mul_of_neg_left b3 hneg
      have e : roh * -(1 / roh) = -1 := by field_simp
      rw [e] at h
      linarith
    have hcont := secularEquation_continuousOn D z n roh x0 x1
      (interior_pole_free D n hD i hi x0 x1 a1 b2)
    obtain ⟨c, hc, hfc⟩ := intermediate_value_Icc' (le_of_lt b1) hcont
      ⟨le_of_lt hf1, le_of_lt hf0⟩
    exact ⟨c, lt_of_lt_of_le a1 hc.1, lt_of_le_of_lt hc.2 b2, hfc⟩
  · obtain ⟨x0, a1, a2, a3⟩ := hab (1 / roh)
    obtain ⟨x1, b1, b2, b3⟩ := hbe x0 0 a1 a2
    have hf0 : secularEquation x0 roh z D n < 0 := by
      rw [secularEquation_eq_sum]
      have h := mul_lt_mul_of_pos_left a3 hpos
      have e : roh * -(1 / roh) = -1 := by field_simp
      rw [e] at h
      linarith
    have hf1 : 0 < secularEquation x1 roh z D n := by
      rw [secularEquation_eq_sum]
      have := mul_pos hpos b3
      linarith
    have hcont := secularEquation_continuousOn D z n roh x0 x1
      (interior_pole_free D n hD i hi x0 x1 a1 b2)
    obtain ⟨c, hc, hfc⟩ := intermediate_value_Icc (le_of_lt b1) hcont
      ⟨le_of_lt hf0, le_of_lt hf1⟩
    exact ⟨c, lt_of_lt_of_le a1 hc.1, lt_of_le_of_lt hc.2 b2, hfc⟩

/-! ### The initial interval of the extremal index -/

end RealLemmas

section Claims

/-- C1 (evaluation at the scenario): on `D = [1, 3]`, `z = [1, 1]`,
`beta = theta = 1` the function returns an array with `L[0] = 3 - 1 / 2^34`,
which is not within `1e-3` of `3 - √2`: the loop compares the signs of `a` and
`lambda`, not those of the secular equation, and walks `a` up to `b`. -/
theorem scenario_first_eigenvalue_off :
    ∃ L, computeEigenvalues Real.sqrt (pair 1 3) (pair 1 1) 2 1 1 = .ok L ∧
      L.getD 0 0 = 3 - 1 / 2 ^ 34 ∧ ¬ |L.getD 0 0 - (3 - Real.sqrt 2)| ≤ 1 / 1000 := by
  obtain ⟨L, hL⟩ := scenario_returns 1 1 (by norm_num)
  have h0 : L.getD 0 0 = 3 - 1 / 2 ^ 34 := by
    rw [scenario_first_entry 1 1 (by norm_num) L hL]
    norm_num
  refine ⟨L, hL, h0, ?_⟩
  have hs : (7 / 5 : ℝ) < Real.sqrt 2 := (Real.lt_sqrt (by norm_num)).mpr (by norm_num)
  intro habs
  have h1 := (abs_le.mp habs).2
  rw [h0] at h1
  norm_num at h1
  linarith

/-- C6: if `L[i]` differs from every `D[j]` and some `z[j]` is non-zero, the
vector `v[j] = (z[j] / (D[j] - L[i])) / N[i]` with
`N = computeNormalizationFactors(D, z, L)` satisfies `Σ_j v[j]² = 1`. -/
theorem eigenvector_unit_norm (D z L : Nat → ℝ) (n i : Nat) (hi : i < n)
    (hL : ∀ j, j < n → L i ≠ D j) (hz : ∃ j, j < n ∧ z j ≠ 0) :
    ∑ j in Finset.range n,
      (z j / (D j - L i) / (computeNormalizationFactors Real.sqrt D z L n).getD i 0) ^ 2 = 1 := by
  rw [normalizationFactor_entry D z L n i hi]
  have hS := normalizationSum_pos D z L n i hL hz
  simp only [div_pow, Real.sq_sqrt (le_of_lt hS)]
  rw [← Finset.sum_div]
  exact div_self (ne_of_gt hS)

/-- Witness of C6 on `D = [1, 3]`, `z = [3, 4]`, `L = [2, 5]`, index `0`. -/
theorem eigenvector_unit_norm_witness :
    ∑ j in Finset.range 2,
      ((pair (3 : ℝ) 4) j / ((pair (1 : ℝ) 3) j - (pair (2 : ℝ) 5) 0) /
        (computeNormalizationFactors Real.sqrt (pair 1 3) (pair 3 4) (pair 2 5) 2).getD 0 0) ^ 2
      = 1 :=
  eigenvector_unit_norm (pair 1 3) (pair 3 4) (pair 2 5) 2 0 (by norm_num)
    (by
      intro j hj
      have : j = 0 ∨ j = 1 := by omega
      rcases this with rfl | rfl <;> simp [pair])
    ⟨0, by norm_num, by simp [pair]⟩

/-- C12: `secularEquation(λ, roh, z, D, n)` equals
`1 + roh * Σ_{i<n} z[i]² / (D[i] - λ)` for every `λ` that differs from every
`D[i]`; it is a function of its arguments only, which it does not change. -/
theorem secular_equation_formula (lambda roh : ℝ) (z D : Nat → ℝ) (n : Nat)
    (_hpole : ∀ i, i < n → lambda ≠ D i) :
    secularEquation lambda roh z D n
      = 1 + roh * ∑ i in Finset.range n, z i ^ 2 / (D i - lambda) := by
  rw [secularEquation_eq_sum]
  simp only [sq]

/-- Witness of C12 at `λ = 2`, `roh = 1`, `z = [1, 1]`, `D = [1, 3]`. -/
theorem secular_equation_formula_witness :
    secularEquation (2 : ℝ) 1 (pair 1 1) (pair 1 3) 2
      = 1 + 1 * ∑ i in Finset.range 2, (pair (1 : ℝ) 1) i ^ 2 / ((pair (1 : ℝ) 3) i - 2) :=
  secular_equation_formula 2 1 (pair 1 1) (pair 1 3) 2 (by
    intro i hi
    have : i = 0 ∨ i = 1 := by omega
    rcases this with rfl | rfl <;> simp [pair])

/-- C15 (evaluation at the scenario): on `D = [1, 3]`, `z = [1, 1]`,
`roh = 1` the secular equation has the root `3 - √2` in the initial bracket
`(1, 3)` of index `0`; the secular equation is positive at the first midpoint
`2`, yet the first iteration replaces the lower boundary, so the bracket is
`[2, 3]` after one iteration and the root lies below the final bracket. -/
theorem bisection_loses_root :
    secularEquation (3 - Real.sqrt 2) 1 (pair 1 1) (pair 1 3) 2 = 0 ∧
      1 < 3 - Real.sqrt 2 ∧ 3 - Real.sqrt 2 < 3 ∧
      0 < secularEquation (2 : ℝ) 1 (pair 1 1) (pair 1 3) 2 ∧
      (bisectLoop (fun lambda : ℝ => secularEquation lambda 1 (pair 1 1) (pair 1 3) 2) 1
        ⟨1, 3, 0, 0⟩).a = 2 ∧
      (bisectLoop (fun lambda : ℝ => secularEquation lambda 1 (pair 1 1) (pair 1 3) 2) 1
        ⟨1, 3, 0, 0⟩).b = 3 ∧
      3 - Real.sqrt 2
        < (bisection (fun lambda : ℝ => secularEquation lambda 1 (pair 1 1) (pair 1 3) 2) 1 3).a := by
  have hs := sqrt_two_mul_self
  have hp := sqrt_two_pos
  have hlt : Real.sqrt 2 < 2 := by nlinarith
  have hgt : 1 < Real.sqrt 2 := by nlinarith
  refine ⟨secularEquation_scenario_root, by linarith, by linarith, ?_, ?_, ?_, ?_⟩
  · rw [secularEquation_scenario_two]
    norm_num
  · rw [scenario_first_step 0]
    rfl
  · rw [scenario_first_step 0]
    rfl
  · have h : maxIter - 1 = 9998 + 1 := rfl
    rw [bisection, h, scenario_first_step 9998]
    have hb := (bisectLoop_bracket
      (fun lambda : ℝ => secularEquation lambda 1 (pair 1 1) (pair 1 3) 2) 9998
      ⟨2, 3, 2, 1⟩ (by norm_num)).1
    simp only at hb
    linarith

/-- C17 (counterexample): on `D = [0, 1]`, `z = [3, 4]`, `beta = 201/10`,
`theta = 1` the first probe is `6` and the step `5`; the secular equation is
negative at the first probe and after each of `99` further steps, and no longer
after `100` further steps, yet the function fails with
`BracketSearchOverflow`. -/
theorem hundred_steps_overflow :
    (∀ m : Nat, m < 100 →
        secularEquation (1 + 5 + (m : ℝ) * 5) (201 / 10 * 1) (pair 3 4) (pair 0 1) 2 < 0) ∧
      ¬ secularEquation (1 + 5 + ((100 : Nat) : ℝ) * 5) (201 / 10 * 1) (pair 3 4) (pair 0 1) 2
        < 0 ∧
      computeEigenvalues Real.sqrt (pair 0 1) (pair 3 4) 2 (201 / 10) 1
        = .error .BracketSearchOverflow := by
  have hneg : ∀ m : Nat, m < 100 →
      secularEquation (1 + 5 + (m : ℝ) * 5) (201 / 10 * 1) (pair 3 4) (pair 0 1) 2 < 0 := by
    intro m hm
    rw [secularEquation_probe]
    have hm1 : (m : ℝ) ≤ 99 := by exact_mod_cast Nat.lt_succ_iff.mp hm
    have hm0 : (0 : ℝ) ≤ (m : ℝ) := Nat.cast_nonneg m
    have e1 : (9 : ℝ) / 501 ≤ 9 / (6 + 5 * (m : ℝ)) :=
      div_le_div_of_nonneg_left (by norm_num) (by positivity) (by linarith)
    have e2 : (16 : ℝ) / 500 ≤ 16 / (5 + 5 * (m : ℝ)) :=
      div_le_div_of_nonneg_left (by norm_num) (by positivity) (by linarith)
    have e3 : (1 : ℝ) < 201 / 10 * 1 * (9 / 501 + 16 / 500) := by norm_num
    nlinarith
  refine ⟨hneg, ?_, ?_⟩
  · rw [secularEquation_probe]
    norm_num
  · exact overflow_three_four (201 / 10) 1 (by norm_num)
      (fun m hm => hneg m (Nat.lt_succ_of_le hm))

/-- C17 (amended): with `x` the first probe, the search fails with
`BracketSearchOverflow` exactly when the secular equation is negative at `x`
and after each of the first `99` further steps of size `normZ`, and it returns
`y` exactly when `y` is the probe reached after `k ≤ 99` further steps, the
first one at which the secular equation is not negative; this holds upwards and
downwards. -/
theorem search_budget (f : ℝ → ℝ) (normZ x y : ℝ) :
    (bracketSearch f (fun b => b + normZ) 99 x = .error .BracketSearchOverflow ↔
        ∀ m : Nat, m ≤ 99 → f (x + m * normZ) < 0) ∧
      (bracketSearch f (fun b => b + normZ) 99 x = .ok y ↔
        ∃ k : Nat, k ≤ 99 ∧ y = x + k * normZ ∧ ¬ f (x + k * normZ) < 0 ∧
          ∀ m : Nat, m < k → f (x + m * normZ) < 0) ∧
      (bracketSearch f (fun a => a - normZ) 99 x = .error .BracketSearchOverflow ↔
        ∀ m : Nat, m ≤ 99 → f (x - m * normZ) < 0) ∧
      (bracketSearch f (fun a => a - normZ) 99 x = .ok y ↔
        ∃ k : Nat, k ≤ 99 ∧ y = x - k * normZ ∧ ¬ f (x - k * normZ) < 0 ∧
          ∀ m : Nat, m < k → f (x - m * normZ) < 0) := by
  refine ⟨⟨?_, ?_⟩, ⟨?_, ?_⟩, ⟨?_, ?_⟩, ⟨?_, ?_⟩⟩
  · intro h
    rcases bracketSearch_up_spec f normZ 99 x with ⟨_, hall⟩ | ⟨k, _, hk, _, _⟩
    · exact hall
    · rw [hk] at h
      cases h
  · exact bracketSearch_up_error f normZ 99 x
  · intro h
    rcases bracketSearch_up_spec f normZ 99 x with ⟨he, _⟩ | ⟨k, hk, hok, hf, hneg⟩
    · rw [he] at h
      cases h
    · rw [hok] at h
      exact ⟨k, hk, (Except.ok.inj h).symm, hf, hneg⟩
  · rintro ⟨k, hk, rfl, hf, hneg⟩
    exact bracketSearch_up_ok f normZ k 99 x hk hneg hf
  · intro h
    rcases bracketSearch_down_spec f normZ 99 x with ⟨_, hall⟩ | ⟨k, _, hk, _, _⟩
    · exact hall
    · rw [hk] at h
      cases h
  · exact bracketSearch_down_error f normZ 99 x
  · intro h
    rcases bracketSearch_down_spec f normZ 99 x with ⟨he, _⟩ | ⟨k, hk, hok, hf, hneg⟩
    · rw [he] at h
      cases h
    · rw [hok] at h
      exact ⟨k, hk, (Except.ok.inj h).symm, hf, hneg⟩
  · rintro ⟨k, hk, rfl, hf, hneg⟩
    exact bracketSearch_down_ok f normZ k 99 x hk hneg hf

/-- C14: for a strictly increasing `D`, non-zero `z` entries, `roh ≠ 0` and
`i < n - 1`, the secular equation is strictly increasing on `(D[i], D[i+1])` if
`roh > 0`, strictly decreasing there if `roh < 0`, and has exactly one root in
that interval. -/
theorem secular_equation_monotone_unique_root (D z : Nat → ℝ) (n : Nat) (roh : ℝ)
    (hD : ∀ k, k + 1 < n → D k < D (k + 1)) (hz : ∀ k, k < n → z k ≠ 0) (hroh : roh ≠ 0)
    (i : Nat) (hi : i + 1 < n) :
    (0 < roh → ∀ x y, D i < x → x < y → y < D (i + 1) →
        secularEquation x roh z D n < secularEquation y roh z D n) ∧
      (roh < 0 → ∀ x y, D i < x → x < y → y < D (i + 1) →
        secularEquation y roh z D n < secularEquation x roh z D n) ∧
      ∃! x, D i < x ∧ x < D (i + 1) ∧ secularEquation x roh z D n = 0 := by
  have hsome : ∃ j, j < n ∧ z j ≠ 0 := ⟨0, by omega, hz 0 (by omega)⟩
  have hinc : 0 < roh → ∀ x y, D i < x → x < y → y < D (i + 1) →
      secularEquation x roh z D n < secularEquation y roh z D n :=
    fun hpos x y hx hxy hy => secularEquation_lt_of_pos D z n roh x y hpos hxy
      (interior_pole_free D n hD i hi x y hx hy) hsome
  have hdec : roh < 0 → ∀ x y, D i < x → x < y → y < D (i + 1) →
      secularEquation y roh z D n < secularEquation x roh z D n :=
    fun hneg x y hx hxy hy => secularEquation_lt_of_neg D z n roh x y hneg hxy
      (interior_pole_free D n hD i hi x y hx hy) hsome
  refine ⟨hinc, hdec, ?_⟩
  obtain ⟨c, hc1, hc2, hc0⟩ := interior_root_exists D z n roh hD hz hroh i hi
  refine ⟨c, ⟨hc1, hc2, hc0⟩, ?_⟩
  rintro y ⟨hy1, hy2, hy0⟩
  by_contra hne
  rcases lt_or_gt_of_ne hroh with hneg | hpos
  · rcases lt_or_gt_of_ne hne with h | h
    · have := hdec hneg y c hy1 h hc2
      linarith
    · have := hdec hneg c y hc1 h hy2
      linarith
  · rcases lt_or_gt_of_ne hne with h | h
    · have := hinc hpos y c hy1 h hc2
      linarith
    · have := hinc hpos c y hc1 h hy2
      linarith

/-- Witness of C14 on `D = [1, 3]`, `z = [1, 1]`, `roh = 1`, index `0`. -/
theorem secular_equation_monotone_unique_root_witness :
    ((0 : ℝ) < 1 → ∀ x y, pair (1 : ℝ) 3 0 < x → x < y → y < pair (1 : ℝ) 3 (0 + 1) →
        secularEquation x 1 (pair 1 1) (pair 1 3) 2
          < secularEquation y 1 (pair 1 1) (pair 1 3) 2) ∧
      ((1 : ℝ) < 0 → ∀ x y, pair (1 : ℝ) 3 0 < x → x < y → y < pair (1 : ℝ) 3 (0 + 1) →
        secularEquation y 1 (pair 1 1) (pair 1 3) 2
          < secularEquation x 1 (pair 1 1) (pair 1 3) 2) ∧
      ∃! x, pair (1 : ℝ) 3 0 < x ∧ x < pair (1 : ℝ) 3 (0 + 1) ∧
        secularEquation x 1 (pair 1 1) (pair 1 3) 2 = 0 :=
  secular_equation_monotone_unique_root (pair 1 3) (pair 1 1) 2 1
    (pair_increasing 1 3 (by norm_num)) (pair_ne_zero 1 1 one_ne_zero one_ne_zero)
    one_ne_zero 0 (by norm_num)

/-- Witness of C17 (amended) on `D = [0, 1]`, `z = [3, 4]`, `roh = 1`: from the
first probe `6` the search takes `4` further steps of size `5` and returns
`26`. -/
theorem search_budget_witness :
    bracketSearch (fun lambda : ℝ => secularEquation lambda 1 (pair 3 4) (pair 0 1) 2)
      (fun b => b + 5) 99 (1 + 5) = .ok (1 + 5 + ((4 : Nat) : ℝ) * 5) :=
  (search_budget (fun lambda : ℝ => secularEquation lambda 1 (pair 3 4) (pair 0 1) 2) 5 (1 + 5)
    (1 + 5 + ((4 : Nat) : ℝ) * 5)).2.1.mpr
    ⟨4, by norm_num, rfl, by rw [secularEquation_probe]; norm_num, fun m hm => by
      rw [secularEquation_probe]
      interval_cases m <;> norm_num⟩

end Claims

end SymmetricEigenvalue
